import Mathlib

/-!
Verification of the OpenMonica file-server ingestion pipeline.

Texts are modelled as `List Char` (Python strings indexed by code point).
Each definition is a direct translation of the corresponding Python
function from the repository (`scripts/mineru_process_legacy.py`,
`scripts/singleton_embedding_legacy.py`, `scripts/graph_module_legacy.py`,
`scripts/tools_legacy.py`).  Network I/O is abstracted by oracle
parameters; everything else follows the source line by line.
-/

/-- Whitespace test matching Python `str.strip()` default characters
(space, tab, newline, carriage return, vertical tab, form feed). -/
def isPySpace (c : Char) : Bool :=
  c == ' ' || c == '\t' || c == '\n' || c == '\r' ||
  c == Char.ofNat 11 || c == Char.ofNat 12

/-- Truthiness of `s.strip()` in Python: true iff the string has at least
one non-whitespace character. -/
def pyStripTruthy (cs : List Char) : Bool :=
  cs.any (fun c => !(isPySpace c))

/-- Python slice `s[a:b]` for `0 ≤ a ≤ b` (clamping at the ends like
Python does). -/
def pySlice (cs : List Char) (a b : Nat) : List Char :=
  (cs.drop a).take (b - a)

/-- Index of the first element satisfying `p`, or `none`. -/
def firstIdx (p : Char → Bool) : List Char → Option Nat
  | [] => none
  | c :: l => if p c then some 0 else (firstIdx p l).map (· + 1)

/-- Attempt to match the Markdown image regex `!\[([^\]]*)\]\(([^)]+)\)`
at the front of `cs`.  Returns the alt-text group, the path group and the
total length of the match.  The character classes exclude the closing
bracket, so the Python regex engine deterministically stops each group at
the first closing bracket; this function mirrors that behaviour. -/
def matchParts (cs : List Char) : Option (List Char × List Char × Nat) :=
  match cs with
  | c1 :: c2 :: rest =>
    if c1 = '!' ∧ c2 = '[' then
      match firstIdx (fun c => c == ']') rest with
      | none => none
      | some j =>
        match rest.drop (j + 1) with
        | [] => none
        | c3 :: rest2 =>
          if c3 = '(' then
            match firstIdx (fun c => c == ')') rest2 with
            | none => none
            | some k =>
              if 1 ≤ k then some (rest.take j, rest2.take k, j + k + 5)
              else none
          else none
    else none
  | _ => none

/-- Length of an image-markdown match at the front of `cs`, if any. -/
def matchLen (cs : List Char) : Option Nat :=
  (matchParts cs).map (fun x => x.2.2)

/-- Fuelled scan implementing `re.finditer` for the image pattern: at each
position try to match; on success emit `(start, end)` and resume at the
match end, otherwise advance one character.  Every match has length at
least 6, so `fuel = cs.length` always suffices to reach the end. -/
def finditerAux (cs : List Char) : Nat → Nat → List (Nat × Nat)
  | 0, _ => []
  | fuel + 1, i =>
    if i < cs.length then
      match matchLen (cs.drop i) with
      | some l => (i, i + l) :: finditerAux cs fuel (i + l)
      | none => finditerAux cs fuel (i + 1)
    else []

/-- All image-reference matches of the text, as `(start, end)` pairs, in
scan order (`image_matches` in `find_all_text_and_image_index`). -/
def findImageMatches (cs : List Char) : List (Nat × Nat) :=
  finditerAux cs cs.length 0

/-- Stable insertion of `a` into `l` ordered by `key` (Python `list.sort`
is stable; on key-sorted input insertion leaves the list unchanged). -/
def insertByKey (key : α → Nat) (a : α) : List α → List α
  | [] => [a]
  | b :: l => if key a ≤ key b then a :: b :: l else b :: insertByKey key a l

/-- Stable insertion sort by `key`, modelling Python `list.sort(key=...)`. -/
def sortByKey (key : α → Nat) : List α → List α
  | [] => []
  | a :: l => insertByKey key a (sortByKey key l)

/-- Kind of a segment produced by the segmenter. -/
inductive SegKind where
  | text : SegKind
  | image : SegKind
deriving DecidableEq, Repr

/-- Loop body of `find_all_text_and_image_index`: walk the image matches,
interleaving the complementary text spans, and append the trailing text
span after the last image (the code only appends the trailing span in the
nonempty-match branch, which is where this function is used). -/
def segLoop (len : Nat) : Nat → List (Nat × Nat) → List (Nat × Nat × SegKind)
  | cur, [] => if cur < len then [(cur, len, SegKind.text)] else []
  | cur, (s, e) :: rest =>
    (if cur < s then [(cur, s, SegKind.text)] else []) ++
      (s, e, SegKind.image) :: segLoop len e rest

/-- Build the segment list from the (sorted) image matches, as in
`find_all_text_and_image_index`: with no matches the whole text is one
text segment (empty text gives no segment at all); otherwise the loop
interleaves text and image spans. -/
def buildSegments (len : Nat) (ms : List (Nat × Nat)) : List (Nat × Nat × SegKind) :=
  match ms with
  | [] => if 0 < len then [(0, len, SegKind.text)] else []
  | _ :: _ => segLoop len 0 ms

/-- Segment list returned by `find_all_text_and_image_index` for a text:
matches are sorted by start, segments built, and the result sorted by
start offset, exactly as the Python function does. -/
def findAllResults (cs : List Char) : List (Nat × Nat × SegKind) :=
  sortByKey (fun s => s.1)
    (buildSegments cs.length (sortByKey (fun m => m.1) (findImageMatches cs)))

/-- Configuration fields of `config["server_components"]["minio"]` used by
the segmenter's URL rewriting. -/
structure SegCfg where
  publicUrlRoot : List Char
  bucketName : List Char

/-- Fuelled scan implementing `re.search` for the image pattern: the
leftmost match's alt-text and path groups, if any. -/
def searchPartsAux (cs : List Char) : Nat → Nat → Option (List Char × List Char)
  | 0, _ => none
  | fuel + 1, i =>
    if i < cs.length then
      match matchParts (cs.drop i) with
      | some (alt, path, _) => some (alt, path)
      | none => searchPartsAux cs fuel (i + 1)
    else none

/-- Leftmost image-markdown match groups of a string (`re.search`). -/
def searchParts (cs : List Char) : Option (List Char × List Char) :=
  searchPartsAux cs cs.length 0

/-- Rewrite one image-markdown snippet as `find_all_text_and_image_index`
does: parse it, join the path (minus one leading slash, if present) to the
configured storage root, and rebuild `![alt](absolute_url)`; if the parse
fails the snippet is kept unchanged. -/
def rewriteImageMarkdown (cfg : SegCfg) (userId kbId docId : List Char)
    (md : List Char) : List Char :=
  match searchParts md with
  | none => md
  | some (alt, path) =>
    let relPath := match path with
      | '/' :: t => t
      | _ => path
    let absoluteUrl :=
      cfg.publicUrlRoot ++ '/' :: cfg.bucketName ++ '/' :: userId ++
        ("/knowledge_base/").toList ++ kbId ++ '/' :: docId ++ '/' :: relPath
    ("![").toList ++ alt ++ ("](").toList ++ absoluteUrl ++ [')']

/-- Converted text built by `find_all_text_and_image_index`: walk the
sorted segments, copying text spans verbatim (sliced from the original
text) and rewriting image spans. -/
def convertedTextOf (cfg : SegCfg) (userId kbId docId : List Char)
    (cs : List Char) : List (Nat × Nat × SegKind) → List Char
  | [] => []
  | (s, e, k) :: rest =>
    (if k = SegKind.text then pySlice cs s e
     else rewriteImageMarkdown cfg userId kbId docId (pySlice cs s e)) ++
      convertedTextOf cfg userId kbId docId cs rest

/-- Model of `find_all_text_and_image_index`: returns the rewritten text
and the segment list (whose offsets were computed on the original text). -/
def findAllTextAndImageIndex (cfg : SegCfg) (userId kbId docId : List Char)
    (cs : List Char) : List Char × List (Nat × Nat × SegKind) :=
  let results := findAllResults cs
  (convertedTextOf cfg userId kbId docId cs results, results)

/-- Entry of the persisted segment/chunk JSON list. -/
structure ChunkEntry where
  content : List Char
  index : Nat
  etype : SegKind
  embedding : Option (List Int)
deriving DecidableEq, Repr

/-- Model of `save_results_to_json_sync`: slice the converted text at each
segment's offsets, enumerate, and sort by index. -/
def saveResultsToJsonSync (convertedText : List Char)
    (results : List (Nat × Nat × SegKind)) : List ChunkEntry :=
  sortByKey (fun x => x.index)
    (results.enum.map (fun p =>
      { content := pySlice convertedText p.2.1 p.2.2.1
        index := p.1
        etype := p.2.2.2
        embedding := none }))

/-- Cursor update of the sliding-window loop in `split_text`: the code
sets `start = end - overlap` and then forces `start = end` whenever
`overlap >= chunk_size`. -/
def nextStart (size ov start : Nat) : Nat :=
  if size ≤ ov then start + size else start + size - ov

/-- Fuelled translation of the `while start < len(text)` loop of
`split_text` (mode `SlidingWindow`, module `normal`).  Each iteration
either emits the final window `text[start:]` and stops, or emits
`text[start:start+chunk_size]` and advances the cursor; whitespace-only
windows are dropped.  `fuel = cs.length` suffices whenever
`1 ≤ size` because the cursor strictly increases. -/
def slidingAux (cs : List Char) (size ov : Nat) : Nat → Nat → List (List Char)
  | 0, _ => []
  | fuel + 1, start =>
    if start < cs.length then
      if cs.length ≤ start + size then
        if pyStripTruthy (cs.drop start) then [cs.drop start] else []
      else
        if pyStripTruthy (pySlice cs start (start + size)) then
          pySlice cs start (start + size) ::
            slidingAux cs size ov fuel (nextStart size ov start)
        else slidingAux cs size ov fuel (nextStart size ov start)
    else []

/-- Model of `split_text` with mode `SlidingWindow`, module `normal`:
texts no longer than the chunk size are returned as a single chunk
(dropped when whitespace-only); longer texts go through the sliding
window loop. -/
def splitText (cs : List Char) (size ov : Nat) : List (List Char) :=
  if cs.length ≤ size then
    if pyStripTruthy cs then [cs] else []
  else slidingAux cs size ov cs.length 0

/-- Inner append of `split_text_by_json`: each chunk is appended with
`index = len(new_results_dict_list)` at the time of the append. -/
def appendChunks (k : SegKind) : List ChunkEntry → List (List Char) → List ChunkEntry
  | acc, [] => acc
  | acc, c :: rest =>
    appendChunks k (acc ++ [{ content := c, index := acc.length, etype := k, embedding := none }]) rest

/-- Loop of `split_text_by_json`: text entries are re-chunked with the
sliding window (each chunk appended with the running length as index),
other entries pass through with the running length as index. -/
def stbjLoop (size ov : Nat) : List ChunkEntry → List ChunkEntry → List ChunkEntry
  | acc, [] => acc
  | acc, it :: rest =>
    if it.etype = SegKind.text then
      stbjLoop size ov (appendChunks SegKind.text acc (splitText it.content size ov)) rest
    else
      stbjLoop size ov
        (acc ++ [{ content := it.content, index := acc.length, etype := it.etype, embedding := none }]) rest

/-- Model of `split_text_by_json`: sort the loaded entries by index, then
rebuild the list with the second chunking pass. -/
def splitTextByJson (size ov : Nat) (items : List ChunkEntry) : List ChunkEntry :=
  stbjLoop size ov [] (sortByKey (fun x => x.index) items)

/-- Model of `_get_index_for_type`: the cursor stored for a group, or 0
when the group has no entry yet in `_type_indices`. -/
def getIndexForType (st : Option Nat) : Nat :=
  st.getD 0

/-- Model of `_addindex_for_type` for a group with `k` configured
instances: initialise an absent cursor to 0, increment it, and reset to 0
once it exceeds `k - 1`. -/
def addIndexForType (k : Nat) (st : Option Nat) : Option Nat :=
  let c := st.getD 0 + 1
  some (if k - 1 < c then 0 else c)

/-- Model of `get_latest_embedding_instance` restricted to the
`instance_type` branch: read the group's instances, raise (here: `none`)
when the group is empty, otherwise return the instance at the current
cursor and advance the cursor.  `instances.get?` mirrors the Python list
indexing `type_instances[latest_index]`. -/
def getLatestEmbeddingInstance (instances : List α) (st : Option Nat) :
    Option (α × Option Nat) :=
  if instances.isEmpty then none
  else (instances.get? (getIndexForType st)).map
    (fun inst => (inst, addIndexForType instances.length st))

/-- Sequence of `m` sequential `select(type=X)` calls, threading the
cursor state; stops if a call raises. -/
def selectN (instances : List α) : Nat → Option Nat → List α × Option Nat
  | 0, st => ([], st)
  | m + 1, st =>
    match getLatestEmbeddingInstance instances st with
    | none => ([], st)
    | some (a, st') =>
      let r := selectN instances m st'
      (a :: r.1, r.2)

/-- Instance at position `i` modulo the group size (the value a
round-robin rotation visits at step `i`). -/
def rotGet (instances : List α) (h : instances ≠ []) (i : Nat) : α :=
  instances.get ⟨i % instances.length, Nat.mod_lt _ (List.length_pos.mpr h)⟩

/-- JSON values as parsed by `json.loads`. -/
inductive JVal where
  | null : JVal
  | bool : Bool → JVal
  | num : Int → JVal
  | str : List Char → JVal
  | arr : List JVal → JVal

/-- Test for a JSON string value. -/
def jIsStr : JVal → Bool
  | JVal.str _ => true
  | _ => false

/-- Model of `tags_validate`: `jsonschema.validate` against `tags_schema`
(`type: array`, `items: {type: string}`) succeeds exactly when the value
is an array whose items are all strings; the schema carries no minimum or
maximum item count. -/
def tagsValidate : JVal → Bool
  | JVal.arr l => l.all jIsStr
  | _ => false

/-- Outcome of the LLM call and fenced-JSON extraction inside
`extract_summary`, abstracting the network layer: either some exception
was raised on the way to a parsed value (network error, non-200 status,
missing ```json fence, `json.loads` failure), or a JSON value was
successfully parsed from the response. -/
inductive LLMOutcome where
  | raises : LLMOutcome
  | parsed : JVal → LLMOutcome

/-- Model of `extract_summary` downstream of the LLM call: a parsed value
is validated with `tags_validate` and returned with an ok status, an
invalid value raises `ValueError("Tags is not valid")`, and any earlier
failure propagates as an exception. -/
def extractSummary (o : LLMOutcome) : Except Unit JVal :=
  match o with
  | LLMOutcome.raises => Except.error ()
  | LLMOutcome.parsed v =>
    if tagsValidate v then Except.ok v else Except.error ()

/-- Python truthiness of the tags list (`if tags:`). -/
def jTruthy : JVal → Bool
  | JVal.arr l => !l.isEmpty
  | JVal.null => false
  | JVal.bool b => b
  | JVal.num n => n ≠ 0
  | JVal.str s => !s.isEmpty

/-- Model of `single_document_summary`: empty text short-circuits to an
empty list; otherwise `extract_summary` is called and any exception is
caught, logged and turned into an empty list. -/
def singleDocumentSummary (text : List Char) (o : LLMOutcome) : JVal :=
  if text.isEmpty then JVal.arr []
  else
    match extractSummary o with
    | Except.ok v => v
    | Except.error _ => JVal.arr []

/-- Document row as used by `produce_document_graph` (id and text). -/
structure DocRec where
  docId : Nat
  text : List Char

/-- Result of `produce_document_graph`: the aggregate status and the tag
updates actually written back to the documents table. -/
structure GraphResult where
  okStatus : Bool
  updates : List (Nat × JVal)

/-- Model of `produce_document_graph` after successful validation of the
user and knowledge base: with no documents the batch errors out; otherwise
every document's summary is computed (each failure isolated inside
`single_document_summary`), only truthy tag lists are written back, and
the batch reports ok. -/
def produceDocumentGraph (docs : List DocRec) (oracle : Nat → LLMOutcome) :
    GraphResult :=
  if docs.isEmpty then { okStatus := false, updates := [] }
  else
    { okStatus := true
      updates := docs.filterMap (fun d =>
        if jTruthy (singleDocumentSummary d.text (oracle d.docId)) then
          some (d.docId, singleDocumentSummary d.text (oracle d.docId))
        else none) }

/-- Configuration fields of `config["server_components"]["minio"]` used by
`convert_to_internal_minio_url`; empty lists model absent/falsy values. -/
structure NetCfg where
  publicUrlRoot : List Char
  host : List Char
  port : List Char

/-- Suffix of a URL after the first `://` marker, if any. -/
def afterSchemeMarker : List Char → Option (List Char)
  | ':' :: '/' :: '/' :: rest => some rest
  | _ :: rest => afterSchemeMarker rest
  | [] => none

/-- Path component of a URL as `urllib.parse.urlparse(url).path` computes
it for the scheme-and-authority URLs this pipeline handles: everything
from the first slash after the authority (query and fragment are ignored,
as the source comment says it does). -/
def urlPath (u : List Char) : List Char :=
  match afterSchemeMarker u with
  | some rest => rest.dropWhile (fun c => c ≠ '/')
  | none => u

/-- Model of `convert_to_internal_minio_url`: if the URL starts with the
configured public prefix and host and port are configured, rebuild it as
`http://host:port` plus the original path; otherwise return it
unchanged. -/
def convertToInternalMinioUrl (cfg : NetCfg) (url : List Char) : List Char :=
  if cfg.publicUrlRoot.isEmpty || !(cfg.publicUrlRoot.isPrefixOf url) then url
  else if cfg.host.isEmpty || cfg.port.isEmpty then url
  else ("http://").toList ++ cfg.host ++ ':' :: cfg.port ++ urlPath url

/-- A propagating Python exception: the raised error together with the
explicit cause installed by `raise ... from ...`, if any. -/
structure Raised (ε : Type) where
  err : ε
  causeChain : Option ε
deriving DecidableEq, Repr

/-- Model of the main logic of `download_file`.  `attempt` is the oracle
for one `_do_request` call.  The function returns the overall outcome
together with the list of URLs actually attempted: a first failure is
retried exactly once on the internal URL when the public-prefix rewrite
changes the URL, and the retry's failure is raised `from` the first
error; when the rewrite leaves the URL unchanged the first error is
raised immediately. -/
def downloadFile (cfg : NetCfg) (attempt : List Char → Except ε ρ)
    (fileUrl : List Char) : Except (Raised ε) ρ × List (List Char) :=
  match attempt fileUrl with
  | Except.ok r => (Except.ok r, [fileUrl])
  | Except.error firstError =>
    if convertToInternalMinioUrl cfg fileUrl ≠ fileUrl then
      match attempt (convertToInternalMinioUrl cfg fileUrl) with
      | Except.ok r =>
        (Except.ok r, [fileUrl, convertToInternalMinioUrl cfg fileUrl])
      | Except.error secondError =>
        (Except.error { err := secondError, causeChain := some firstError },
          [fileUrl, convertToInternalMinioUrl cfg fileUrl])
    else
      (Except.error { err := firstError, causeChain := none }, [fileUrl])

/-- Sample text for concrete evaluations of the chunker. -/
def abcdefText : List Char := ("abcdef").toList

/-- Whitespace-only sample text. -/
def wsText : List Char := (" ").toList

/-- Non-whitespace sample text shorter than the chunk size. -/
def abText : List Char := ("ab").toList

/-- Sample text with an interior whitespace-only window of one chunk. -/
def demoText : List Char := ("abc   def").toList

/-- Validity of a match list produced by the regex scan, relative to a
text of length `len` and a scan position `cur`: matches are in order,
nonempty, non-overlapping and within bounds. -/
inductive ValidMs (len : Nat) : Nat -> List (Nat × Nat) -> Prop where
  | nil (cur : Nat) : ValidMs len cur []
  | cons (cur s e : Nat) (rest : List (Nat × Nat)) :
      cur ≤ s -> s < e -> e ≤ len -> ValidMs len e rest ->
      ValidMs len cur ((s, e) :: rest)

/-- Exact partition of the half-open interval `[a, c)` by a segment list:
the segments are sorted by start, pairwise non-overlapping, gapless, each
nonempty, the first starts at `a` and the last ends at `c`. -/
inductive Covers : Nat -> Nat -> List (Nat × Nat × SegKind) -> Prop where
  | nil (a : Nat) : Covers a a []
  | cons (a b c : Nat) (k : SegKind) (rest : List (Nat × Nat × SegKind)) :
      a < b -> Covers b c rest -> Covers a c ((a, b, k) :: rest)

/-- Number of image segments in a segment list. -/
def countImages : List (Nat × Nat × SegKind) -> Nat
  | [] => 0
  | (_, _, SegKind.image) :: rest => countImages rest + 1
  | (_, _, SegKind.text) :: rest => countImages rest

/-- Concrete configuration for evaluating the segmenter. -/
def sampleCfg : SegCfg :=
  { publicUrlRoot := ("http://pub").toList, bucketName := ("bkt").toList }

/-- Concrete text with one image reference whose URL rewrite lengthens
the image markdown. -/
def sampleText : List Char := ("a![x](p)b").toList

/-- Indices stay dense through `appendChunks`: if the accumulator's
indices are exactly `0..len-1`, they still are after appending chunks. -/
theorem appendChunks_index_inv (k : SegKind) :
    ∀ (cs : List (List Char)) (acc : List ChunkEntry),
      acc.map (fun e => e.index) = List.range acc.length →
      (appendChunks k acc cs).map (fun e => e.index) =
        List.range (appendChunks k acc cs).length := by
  intro cs
  induction cs with
  | nil => intro acc h; simpa [appendChunks] using h
  | cons c rest ih =>
    intro acc h
    simp only [appendChunks]
    apply ih
    rw [List.map_append, h, List.length_append]
    simp [List.range_succ]

/-- Indices stay dense through the `split_text_by_json` loop. -/
theorem stbjLoop_index_inv (size ov : Nat) :
    ∀ (items acc : List ChunkEntry),
      acc.map (fun e => e.index) = List.range acc.length →
      (stbjLoop size ov acc items).map (fun e => e.index) =
        List.range (stbjLoop size ov acc items).length := by
  intro items
  induction items with
  | nil => intro acc h; simpa [stbjLoop] using h
  | cons it rest ih =>
    intro acc h
    simp only [stbjLoop]
    by_cases ht : it.etype = SegKind.text
    · rw [if_pos ht]
      exact ih _ (appendChunks_index_inv _ _ _ h)
    · rw [if_neg ht]
      apply ih
      rw [List.map_append, h, List.length_append]
      simp [List.range_succ]

/-- Claim C3: after the second chunking pass (`split_text_by_json`), the
entry indices of a document are exactly the dense integers `0..k-1` in
list order — no gaps, no duplicates — regardless of how many text
segments were split, how many whitespace-only chunks were skipped, and
how many image segments passed through. -/
theorem claim_C3_dense_indices (size ov : Nat) (items : List ChunkEntry) :
    (splitTextByJson size ov items).map (fun e => e.index) =
      List.range (splitTextByJson size ov items).length := by
  unfold splitTextByJson
  exact stbjLoop_index_inv size ov _ [] (by simp)

/-- Claim C4: the sliding-window chunker terminates for `chunk_size ≥ 1`:
the cursor strictly increases on every iteration (by exactly
`chunk_size` when `overlap ≥ chunk_size`), so the loop stabilises as soon
as the fuel covers the remaining length — the recursion reaches its
fixed point regardless of any further fuel. -/
theorem claim_C4_termination (cs : List Char) (size ov : Nat) (h : 1 ≤ size) :
    (∀ start, start < nextStart size ov start) ∧
    (size ≤ ov → ∀ start, nextStart size ov start = start + size) ∧
    (∀ start f1 f2, cs.length - start ≤ f1 → cs.length - start ≤ f2 →
      slidingAux cs size ov f1 start = slidingAux cs size ov f2 start) := by
  have hnext : ∀ start, start < nextStart size ov start := by
    intro start; unfold nextStart; split <;> omega
  refine ⟨hnext, ?_, ?_⟩
  · intro hov start; unfold nextStart; rw [if_pos hov]
  · have key : ∀ f1 f2 start, cs.length - start ≤ f1 → cs.length - start ≤ f2 →
        slidingAux cs size ov f1 start = slidingAux cs size ov f2 start := by
      intro f1
      induction f1 with
      | zero =>
        intro f2 start h1 _
        have hns : ¬ start < cs.length := by omega
        cases f2 with
        | zero => rfl
        | succ f2' => simp [slidingAux, hns]
      | succ f1' ih =>
        intro f2 start h1 h2
        cases f2 with
        | zero =>
          have hns : ¬ start < cs.length := by omega
          simp [slidingAux, hns]
        | succ f2' =>
          simp only [slidingAux]
          by_cases hs : start < cs.length
          · rw [if_pos hs, if_pos hs]
            by_cases he : cs.length ≤ start + size
            · rw [if_pos he, if_pos he]
            · rw [if_neg he, if_neg he]
              have hlt := hnext start
              have hrec := ih f2' (nextStart size ov start)
                (by omega) (by omega)
              rw [hrec]
          · rw [if_neg hs, if_neg hs]
    intro start f1 f2 h1 h2
    exact key f1 f2 start h1 h2

/-- Witness for claim C4 at a concrete input: with `chunk_size = 2` and
`overlap = 3 ≥ chunk_size` the cursor advances and the loop result is
independent of extra fuel. -/
theorem claim_C4_termination_witness :
    (0 < nextStart 2 3 0) ∧
    slidingAux abcdefText 2 3 6 0 = slidingAux abcdefText 2 3 99 0 :=
  ⟨(claim_C4_termination abcdefText 2 3 (by decide)).1 0,
   (claim_C4_termination abcdefText 2 3 (by decide)).2.2 0 6 99
      (by decide) (by decide)⟩

/-- Counterexample to claim C9 as stated: a whitespace-only text no longer
than the chunk size is dropped by `split_text`, not returned as a
one-element list containing the input. -/
theorem claim_C9_counterexample : splitText wsText 10 2 ≠ [wsText] := by decide

/-- Claim C9 (amended): for a text no longer than the chunk size that
contains at least one non-whitespace character, `split_text` returns the
single original text unchanged and re-applying chunking to its own output
changes nothing; a whitespace-only text yields the empty list instead. -/
theorem claim_C9_amended (cs : List Char) (size ov : Nat) (h : cs.length ≤ size) :
    (pyStripTruthy cs = true →
      splitText cs size ov = [cs] ∧
      (splitText cs size ov).flatMap (fun t => splitText t size ov) =
        splitText cs size ov) ∧
    (pyStripTruthy cs = false → splitText cs size ov = []) := by
  constructor
  · intro ht
    have h1 : splitText cs size ov = [cs] := by
      unfold splitText; rw [if_pos h, if_pos ht]
    refine ⟨h1, ?_⟩
    rw [h1]
    simp [h1]
  · intro hf
    unfold splitText
    rw [if_pos h, hf]
    simp

/-- Witness for the amended claim C9 at a concrete input. -/
theorem claim_C9_amended_witness :
    abText.length ≤ 5 ∧ splitText abText 5 0 = [abText] :=
  ⟨by decide, ((claim_C9_amended abText 5 0 (by decide)).1 (by decide)).1⟩

/-- Chunks emitted by the sliding-window loop always contain a
non-whitespace character: every append is guarded by the strip test. -/
theorem slidingAux_strip (cs : List Char) (size ov : Nat) :
    ∀ (fuel start : Nat) (c : List Char),
      c ∈ slidingAux cs size ov fuel start → pyStripTruthy c = true := by
  intro fuel
  induction fuel with
  | zero => intro start c hc; simp [slidingAux] at hc
  | succ f ih =>
    intro start c hc
    simp only [slidingAux] at hc
    by_cases h1 : start < cs.length
    · rw [if_pos h1] at hc
      by_cases h2 : cs.length ≤ start + size
      · rw [if_pos h2] at hc
        by_cases h3 : pyStripTruthy (cs.drop start) = true
        · rw [if_pos h3] at hc
          simp at hc
          rw [hc]; exact h3
        · rw [if_neg h3] at hc
          simp at hc
      · rw [if_neg h2] at hc
        by_cases h3 : pyStripTruthy (pySlice cs start (start + size)) = true
        · rw [if_pos h3] at hc
          rcases List.mem_cons.mp hc with hceq | hmem
          · rw [hceq]; exact h3
          · exact ih _ _ hmem
        · rw [if_neg h3] at hc
          exact ih _ _ hc
    · rw [if_neg h1] at hc
      simp at hc

/-- Claim C10: every chunk emitted by `split_text` contains at least one
non-whitespace character — whitespace-only windows are silently dropped
wherever they occur — and consequently concatenating the chunks need not
reproduce the whitespace-only spans of the input (shown on a text whose
middle window is all spaces). -/
theorem claim_C10_no_ws_chunks :
    (∀ (cs : List Char) (size ov : Nat) (c : List Char),
        c ∈ splitText cs size ov → pyStripTruthy c = true) ∧
    (splitText demoText 3 0).flatten ≠ demoText := by
  constructor
  · intro cs size ov c hc
    unfold splitText at hc
    by_cases h : cs.length ≤ size
    · rw [if_pos h] at hc
      by_cases ht : pyStripTruthy cs = true
      · rw [if_pos ht] at hc
        simp at hc
        rw [hc]; exact ht
      · rw [if_neg ht] at hc
        simp at hc
    · rw [if_neg h] at hc
      exact slidingAux_strip cs size ov _ _ _ hc
  · decide

/-- Witness for claim C10 at a concrete input: the chunk emitted for a
short non-whitespace text indeed passes the strip test. -/
theorem claim_C10_no_ws_chunks_witness : pyStripTruthy abText = true :=
  claim_C10_no_ws_chunks.1 abText 5 0 abText (by decide)


theorem firstIdx_lt_length (p : Char → Bool) :
    ∀ (l : List Char) (j : Nat), firstIdx p l = some j → j < l.length := by
  intro l
  induction l with
  | nil => intro j h; simp [firstIdx] at h
  | cons c l ih =>
    intro j h
    simp only [firstIdx] at h
    by_cases hp : p c
    · rw [if_pos hp] at h
      injection h with h'
      simp [← h']
    · rw [if_neg hp] at h
      cases hfi : firstIdx p l with
      | none => rw [hfi] at h; simp at h
      | some j' =>
        rw [hfi] at h
        simp at h
        have := ih j' hfi
        simp only [List.length_cons]
        omega

theorem matchParts_bounds (cs alt path : List Char) (l : Nat)
    (h : matchParts cs = some (alt, path, l)) : 6 ≤ l ∧ l ≤ cs.length := by
  unfold matchParts at h
  split at h
  next c1 c2 rest =>
    split at h
    next h12 =>
      split at h
      next => exact Option.noConfusion h
      next j hj =>
        have hjlt := firstIdx_lt_length _ rest j hj
        split at h
        next => exact Option.noConfusion h
        next c3 rest2 hd =>
          split at h
          next h3 =>
            split at h
            next => exact Option.noConfusion h
            next k hk =>
              have hklt := firstIdx_lt_length _ rest2 k hk
              split at h
              next hk1 =>
                injection h with h'
                have hl : j + k + 5 = l := by
                  have := congrArg (fun x => x.2.2) h'
                  simpa using this
                have hdl : (rest.drop (j + 1)).length = rest.length - (j + 1) :=
                  List.length_drop _ _
                rw [hd] at hdl
                simp only [List.length_cons] at hdl ⊢
                omega
              next => exact Option.noConfusion h
          next => exact Option.noConfusion h
    next => exact Option.noConfusion h
  next => exact Option.noConfusion h

theorem matchLen_bounds (cs : List Char) (l : Nat)
    (h : matchLen cs = some l) : 6 ≤ l ∧ l ≤ cs.length := by
  unfold matchLen at h
  cases hm : matchParts cs with
  | none => rw [hm] at h; simp at h
  | some x =>
    rw [hm] at h
    simp at h
    obtain ⟨alt, path, l'⟩ := x
    have := matchParts_bounds cs alt path l' hm
    simp only at h
    omega

theorem validms_weaken {len cur' : Nat} {ms : List (Nat × Nat)}
    (h : ValidMs len cur' ms) (cur : Nat) (hle : cur ≤ cur') :
    ValidMs len cur ms := by
  cases h with
  | nil => exact ValidMs.nil cur
  | cons _ s e rest h1 h2 h3 h4 =>
    exact ValidMs.cons cur s e rest (by omega) h2 h3 h4

theorem finditerAux_valid (cs : List Char) :
    ∀ (fuel i : Nat), ValidMs cs.length i (finditerAux cs fuel i) := by
  intro fuel
  induction fuel with
  | zero => intro i; exact ValidMs.nil i
  | succ f ih =>
    intro i
    simp only [finditerAux]
    by_cases h : i < cs.length
    · rw [if_pos h]
      cases hm : matchLen (cs.drop i) with
      | none =>
        show ValidMs cs.length i (finditerAux cs f (i + 1))
        exact validms_weaken (ih (i + 1)) i (by omega)
      | some l =>
        have hb := matchLen_bounds _ _ hm
        rw [List.length_drop] at hb
        show ValidMs cs.length i ((i, i + l) :: finditerAux cs f (i + l))
        exact ValidMs.cons i i (i + l) _ (Nat.le_refl i) (by omega) (by omega)
          (ih (i + l))
    · rw [if_neg h]; exact ValidMs.nil i

theorem findImageMatches_valid (cs : List Char) :
    ValidMs cs.length 0 (findImageMatches cs) :=
  finditerAux_valid cs cs.length 0

theorem segLoop_covers (len : Nat) :
    ∀ (ms : List (Nat × Nat)) (cur : Nat), cur ≤ len → ValidMs len cur ms →
      Covers cur len (segLoop len cur ms) := by
  intro ms
  induction ms with
  | nil =>
    intro cur hc _
    simp only [segLoop]
    by_cases h : cur < len
    · rw [if_pos h]; exact Covers.cons cur len len _ _ h (Covers.nil len)
    · rw [if_neg h]
      have heq : cur = len := by omega
      rw [heq]
      exact Covers.nil len
  | cons m rest ih =>
    intro cur hc hv
    obtain ⟨s, e⟩ := m
    cases hv with
    | cons _ _ _ _ hcs hse hel hrest =>
      simp only [segLoop]
      by_cases h : cur < s
      · rw [if_pos h]
        simp only [List.cons_append, List.nil_append]
        exact Covers.cons cur s len _ _ h
          (Covers.cons s e len _ _ hse (ih e (by omega) hrest))
      · rw [if_neg h]
        have hcur : cur = s := by omega
        simp only [List.nil_append]
        rw [hcur]
        exact Covers.cons s e len _ _ hse (ih e (by omega) hrest)

theorem segLoop_count (len : Nat) :
    ∀ (ms : List (Nat × Nat)) (cur : Nat),
      countImages (segLoop len cur ms) = ms.length := by
  intro ms
  induction ms with
  | nil =>
    intro cur
    simp only [segLoop]
    by_cases h : cur < len
    · rw [if_pos h]; rfl
    · rw [if_neg h]; rfl
  | cons m rest ih =>
    intro cur
    obtain ⟨s, e⟩ := m
    simp only [segLoop]
    by_cases h : cur < s
    · rw [if_pos h]
      simp only [List.cons_append, List.nil_append, countImages]
      rw [ih e]
      simp
    · rw [if_neg h]
      simp only [List.nil_append, countImages]
      rw [ih e]
      simp

theorem segLoop_length (len : Nat) :
    ∀ (ms : List (Nat × Nat)) (cur : Nat),
      (segLoop len cur ms).length ≤ 2 * ms.length + 1 := by
  intro ms
  induction ms with
  | nil =>
    intro cur
    simp only [segLoop]
    by_cases h : cur < len
    · rw [if_pos h]; simp
    · rw [if_neg h]; simp
  | cons m rest ih =>
    intro cur
    obtain ⟨s, e⟩ := m
    simp only [segLoop]
    have hr := ih e
    by_cases h : cur < s
    · rw [if_pos h]
      simp only [List.cons_append, List.nil_append, List.length_cons,
        List.length_cons] at *
      omega
    · rw [if_neg h]
      simp only [List.nil_append, List.length_cons, List.length_cons] at *
      omega

theorem segLoop_chain (len : Nat) :
    ∀ (ms : List (Nat × Nat)) (cur : Nat),
      List.Chain' (fun x y => x.2.2 = SegKind.text → y.2.2 = SegKind.image)
        (segLoop len cur ms) := by
  intro ms
  induction ms with
  | nil =>
    intro cur
    simp only [segLoop]
    by_cases h : cur < len
    · rw [if_pos h]; exact List.chain'_singleton _
    · rw [if_neg h]; exact List.chain'_nil
  | cons m rest ih =>
    intro cur
    obtain ⟨s, e⟩ := m
    simp only [segLoop]
    have htail : List.Chain' (fun x y => x.2.2 = SegKind.text → y.2.2 = SegKind.image)
        ((s, e, SegKind.image) :: segLoop len e rest) := by
      rw [List.chain'_cons']
      refine ⟨?_, ih e⟩
      intro y _ habs
      simp at habs
    by_cases h : cur < s
    · rw [if_pos h]
      simp only [List.cons_append, List.nil_append]
      rw [List.chain'_cons]
      exact ⟨fun _ => rfl, htail⟩
    · rw [if_neg h]
      simpa using htail

theorem covers_start {a c : Nat} {x : Nat × Nat × SegKind}
    {l : List (Nat × Nat × SegKind)} (h : Covers a c (x :: l)) : x.1 = a := by
  cases h; rfl

theorem covers_chain_le {a c : Nat} {l : List (Nat × Nat × SegKind)}
    (h : Covers a c l) : List.Chain' (fun x y => x.1 ≤ y.1) l := by
  induction h with
  | nil => exact List.chain'_nil
  | cons a b c k rest hab _ ih =>
    rw [List.chain'_cons']
    refine ⟨?_, ih⟩
    intro y hy
    cases rest with
    | nil => simp at hy
    | cons z zs =>
      simp at hy
      rw [← hy]
      have hz : z.1 = b := covers_start (by assumption)
      rw [hz]
      exact Nat.le_of_lt hab

theorem validms_start {len cur : Nat} {x : Nat × Nat}
    {l : List (Nat × Nat)} (h : ValidMs len cur (x :: l)) : cur ≤ x.1 := by
  cases h; assumption

theorem validms_chain_le {len cur : Nat} {ms : List (Nat × Nat)}
    (h : ValidMs len cur ms) : List.Chain' (fun x y => x.1 ≤ y.1) ms := by
  induction h with
  | nil => exact List.chain'_nil
  | cons cur s e rest h1 h2 h3 h4 ih =>
    rw [List.chain'_cons']
    refine ⟨?_, ih⟩
    intro y hy
    cases rest with
    | nil => simp at hy
    | cons z zs =>
      simp at hy
      rw [← hy]
      have hz : e ≤ z.1 := validms_start h4
      exact le_trans (Nat.le_of_lt h2) hz

theorem sortByKey_eq_self (key : α → Nat) :
    ∀ (l : List α), List.Chain' (fun x y => key x ≤ key y) l →
      sortByKey key l = l := by
  intro l
  induction l with
  | nil => intro _; rfl
  | cons a l ih =>
    intro h
    obtain ⟨h1, h2⟩ := List.chain'_cons'.mp h
    simp only [sortByKey]
    rw [ih h2]
    cases l with
    | nil => rfl
    | cons b l' =>
      simp only [insertByKey]
      rw [if_pos (h1 b rfl)]

theorem buildSegments_covers (cs : List Char) :
    Covers 0 cs.length (buildSegments cs.length (findImageMatches cs)) := by
  cases hm : findImageMatches cs with
  | nil =>
    simp only [buildSegments]
    by_cases h : 0 < cs.length
    · rw [if_pos h]
      exact Covers.cons 0 cs.length cs.length _ _ h (Covers.nil _)
    · rw [if_neg h]
      have heq : cs.length = 0 := by omega
      rw [heq]
      exact Covers.nil 0
  | cons m ms =>
    simp only [buildSegments]
    have hv := findImageMatches_valid cs
    rw [hm] at hv
    exact segLoop_covers cs.length (m :: ms) 0 (Nat.zero_le _) hv

theorem findImageMatches_sort_id (cs : List Char) :
    sortByKey (fun m => m.1) (findImageMatches cs) = findImageMatches cs :=
  sortByKey_eq_self _ _ (validms_chain_le (findImageMatches_valid cs))

theorem findAllResults_eq (cs : List Char) :
    findAllResults cs = buildSegments cs.length (findImageMatches cs) := by
  unfold findAllResults
  rw [findImageMatches_sort_id]
  exact sortByKey_eq_self _ _ (covers_chain_le (buildSegments_covers cs))

/-- Claim C1: for every input text, the segment list produced by
`find_all_text_and_image_index` is sorted by start offset, non-overlapping
and gapless, exactly covering `[0, len)` (`Covers 0 len`); it contains one
image segment per regex match and at most `2N + 1` segments in total;
kinds alternate correctly around each image (no two adjacent text
segments); with no image references the whole text is a single text
segment; and empty text yields zero segments. -/
theorem claim_C1_segmentation (cs : List Char) :
    Covers 0 cs.length (findAllResults cs) ∧
    countImages (findAllResults cs) = (findImageMatches cs).length ∧
    (findAllResults cs).length ≤ 2 * (findImageMatches cs).length + 1 ∧
    List.Chain' (fun x y => x.2.2 = SegKind.text → y.2.2 = SegKind.image)
      (findAllResults cs) ∧
    (findImageMatches cs = [] → 0 < cs.length →
      findAllResults cs = [(0, cs.length, SegKind.text)]) ∧
    (cs = [] → findAllResults cs = []) := by
  rw [findAllResults_eq]
  refine ⟨buildSegments_covers cs, ?_, ?_, ?_, ?_, ?_⟩
  · cases hm : findImageMatches cs with
    | nil =>
      simp only [buildSegments]
      by_cases h : 0 < cs.length
      · rw [if_pos h]; rfl
      · rw [if_neg h]; rfl
    | cons m ms =>
      simp only [buildSegments]
      exact segLoop_count cs.length (m :: ms) 0
  · cases hm : findImageMatches cs with
    | nil =>
      simp only [buildSegments]
      by_cases h : 0 < cs.length
      · rw [if_pos h]; simp
      · rw [if_neg h]; simp
    | cons m ms =>
      simp only [buildSegments]
      exact segLoop_length cs.length (m :: ms) 0
  · cases hm : findImageMatches cs with
    | nil =>
      simp only [buildSegments]
      by_cases h : 0 < cs.length
      · rw [if_pos h]; exact List.chain'_singleton _
      · rw [if_neg h]; exact List.chain'_nil
    | cons m ms =>
      simp only [buildSegments]
      exact segLoop_chain cs.length (m :: ms) 0
  · intro hm hl
    rw [hm]
    simp only [buildSegments]
    rw [if_pos hl]
  · intro h
    rw [h]
    rfl

/-- Witness for claim C1 at concrete inputs: a text without image
references is a single text segment. -/
theorem claim_C1_segmentation_witness :
    findImageMatches abText = [] ∧ 0 < abText.length ∧
    findAllResults abText = [(0, abText.length, SegKind.text)] :=
  ⟨by decide, by decide,
    (claim_C1_segmentation abText).2.2.2.2.1 (by decide) (by decide)⟩

/-- Claim C2: refuted on the code — `save_results_to_json_sync` slices the
rewritten text with segment offsets that were computed on the original
text, so when URL rewriting lengthens an image reference the stored
contents concatenate to a strict prefix of the rewritten text instead of
reproducing it. -/
theorem claim_C2_offset_mismatch :
    ((saveResultsToJsonSync
        (findAllTextAndImageIndex sampleCfg (("u").toList) (("k").toList)
          (("d").toList) sampleText).1
        (findAllTextAndImageIndex sampleCfg (("u").toList) (("k").toList)
          (("d").toList) sampleText).2).map
      (fun e => e.content)).flatten ≠
      (findAllTextAndImageIndex sampleCfg (("u").toList) (("k").toList)
        (("d").toList) sampleText).1 := by
  decide

theorem mod_two_cycle (a k : Nat) (h : a < 2 * k) :
    a % k = if a < k then a else a - k := by
  by_cases hl : a < k
  · rw [if_pos hl, Nat.mod_eq_of_lt hl]
  · rw [if_neg hl, Nat.mod_eq_sub_mod (by omega), Nat.mod_eq_of_lt (by omega)]

theorem rr_hit (cur j k : Nat) (hk : 0 < k) (hj : j < k) :
    ∀ t, t < k → (((cur + t) % k = j) ↔ t = (j + k - cur % k) % k) := by
  intro t ht
  have hc : cur % k < k := Nat.mod_lt _ hk
  have h1 : (cur + t) % k = (cur % k + t) % k := by
    conv_lhs => rw [← Nat.mod_add_mod]
  have h2 : (cur % k + t) % k =
      if cur % k + t < k then cur % k + t else cur % k + t - k :=
    mod_two_cycle _ _ (by omega)
  have h3 : (j + k - cur % k) % k =
      if j + k - cur % k < k then j + k - cur % k else j + k - cur % k - k :=
    mod_two_cycle _ _ (by omega)
  rw [h1, h2, h3]
  split_ifs <;> omega

theorem countP_range_eq (n a : Nat) :
    (List.range n).countP (fun t => decide (t = a)) = if a < n then 1 else 0 := by
  induction n with
  | zero => simp
  | succ n ih =>
    rw [List.range_succ, List.countP_append, ih]
    have h1 : List.countP (fun t => decide (t = a)) [a] = 1 := by simp
    by_cases h : n = a
    · rw [h, h1]
      split_ifs <;> omega
    · have h2 : List.countP (fun t => decide (t = a)) [n] = 0 := by simp [h]
      rw [h2]
      split_ifs <;> omega

theorem rr_cycle (k cur j : Nat) (hk : 0 < k) (hj : j < k) :
    (List.range k).countP (fun t => decide ((cur + t) % k = j)) = 1 := by
  have ht0 : (j + k - cur % k) % k < k := Nat.mod_lt _ hk
  have hcong : ∀ t ∈ List.range k,
      (decide ((cur + t) % k = j) = true) ↔
        (decide (t = (j + k - cur % k) % k) = true) := by
    intro t ht
    simp only [List.mem_range] at ht
    simp only [decide_eq_true_eq]
    exact rr_hit cur j k hk hj t ht
  rw [List.countP_congr hcong, countP_range_eq, if_pos ht0]

theorem ceil_div_eq (k m : Nat) (hk : 0 < k) :
    (m + k - 1) / k = m / k + (if m % k = 0 then 0 else 1) := by
  have hm : k * (m / k) + m % k = m := Nat.div_add_mod m k
  have hrk : m % k < k := Nat.mod_lt _ hk
  by_cases h0 : m % k = 0
  · rw [if_pos h0]
    by_cases hq : m = 0
    · subst hq; simp [Nat.div_eq_of_lt (by omega : k - 1 < k)]
    · have h1 : m + k - 1 = k * (m / k) + (k - 1) := by omega
      have h2 : (k - 1) / k = 0 := Nat.div_eq_of_lt (by omega)
      rw [h1, Nat.mul_add_div hk, h2]
  · rw [if_neg h0]
    have h1 : m + k - 1 = k * (m / k) + (m % k + k - 1) := by omega
    rw [h1, Nat.mul_add_div hk]
    congr 1
    have h2 : (m % k + k - 1 - k) / k = 0 := Nat.div_eq_of_lt (by omega)
    rw [Nat.div_eq_sub_div hk (by omega), h2]

theorem rr_count_bounds (k cur j : Nat) (hk : 0 < k) (hj : j < k) :
    ∀ m, m / k ≤ (List.range m).countP (fun t => decide ((cur + t) % k = j)) ∧
      (List.range m).countP (fun t => decide ((cur + t) % k = j)) ≤
        m / k + (if m % k = 0 then 0 else 1) := by
  intro m
  induction m using Nat.strong_induction_on with
  | _ m ih =>
    by_cases hm : k ≤ m
    · have hsplit : m = k + (m - k) := by omega
      have hcount : (List.range m).countP (fun t => decide ((cur + t) % k = j)) =
          1 + (List.range (m - k)).countP (fun t => decide ((cur + t) % k = j)) := by
        conv_lhs => rw [hsplit]
        rw [List.range_add, List.countP_append, rr_cycle k cur j hk hj]
        congr 1
        rw [List.countP_map]
        apply List.countP_congr
        intro t ht
        simp only [Function.comp, decide_eq_true_eq]
        rw [show cur + (k + t) = cur + t + k by omega, Nat.add_mod_right]
      have hdiv : m / k = (m - k) / k + 1 := Nat.div_eq_sub_div hk hm
      have hmod : m % k = (m - k) % k := Nat.mod_eq_sub_mod hm
      have hih := ih (m - k) (by omega)
      rw [hcount, hdiv, hmod]
      split_ifs at hih ⊢ <;> omega
    · have hd : m / k = 0 := Nat.div_eq_of_lt (by omega)
      constructor
      · rw [hd]; exact Nat.zero_le _
      · by_cases h0 : m = 0
        · subst h0; simp
        · rw [hd, Nat.mod_eq_of_lt (by omega), if_neg h0]
          have hmono : (List.range m).countP (fun t => decide ((cur + t) % k = j)) ≤
              (List.range k).countP (fun t => decide ((cur + t) % k = j)) := by
            have hsplit : List.range k =
                List.range m ++ (List.range (k - m)).map (fun x => m + x) := by
              rw [← List.range_add]
              congr 1
              omega
            rw [hsplit, List.countP_append]
            exact Nat.le_add_right _ _
          have hcyc := rr_cycle k cur j hk hj
          omega

theorem rr_count_floor_ceil (k cur j m : Nat) (hk : 0 < k) (hj : j < k) :
    (List.range m).countP (fun t => decide ((cur + t) % k = j)) = m / k ∨
      (List.range m).countP (fun t => decide ((cur + t) % k = j)) =
        (m + k - 1) / k := by
  have hb := rr_count_bounds k cur j hk hj m
  have hc := ceil_div_eq k m hk
  split_ifs at hb hc <;> omega

theorem rotGet_of_lt {α : Type} (inst : List α) (hne : inst ≠ []) (cur : Nat)
    (hc : cur < inst.length) : rotGet inst hne cur = inst.get ⟨cur, hc⟩ :=
  congrArg inst.get (Fin.ext (Nat.mod_eq_of_lt hc))

theorem getLatest_spec {α : Type} (inst : List α) (hne : inst ≠ []) (cur : Nat)
    (hc : cur < inst.length) :
    getLatestEmbeddingInstance inst (some cur) =
      some (inst.get ⟨cur, hc⟩, some ((cur + 1) % inst.length)) := by
  unfold getLatestEmbeddingInstance
  have hemp : ¬ (inst.isEmpty = true) := by
    cases inst with
    | nil => exact absurd rfl hne
    | cons a l => simp
  rw [if_neg hemp]
  have hidx : getIndexForType (some cur) = cur := rfl
  rw [hidx, List.get?_eq_get hc]
  rw [Option.map_some']
  have hadd : addIndexForType inst.length (some cur) =
      some ((cur + 1) % inst.length) := by
    unfold addIndexForType
    simp only [Option.getD_some]
    congr 1
    by_cases h : inst.length - 1 < cur + 1
    · rw [if_pos h]
      have heq : cur + 1 = inst.length := by omega
      rw [heq, Nat.mod_self]
    · rw [if_neg h, Nat.mod_eq_of_lt (by omega)]
  rw [hadd]

theorem selectN_trace {α : Type} (inst : List α) (hne : inst ≠ []) :
    ∀ (m cur : Nat), cur < inst.length →
      (selectN inst m (some cur)).1 =
        (List.range m).map (fun t => rotGet inst hne (cur + t)) := by
  intro m
  induction m with
  | zero => intro cur _; simp [selectN]
  | succ m ih =>
    intro cur hc
    have hk : 0 < inst.length := List.length_pos.mpr hne
    simp only [selectN]
    rw [getLatest_spec inst hne cur hc]
    show inst.get ⟨cur, hc⟩ ::
        (selectN inst m (some ((cur + 1) % inst.length))).1 = _
    rw [ih ((cur + 1) % inst.length) (Nat.mod_lt _ hk)]
    rw [List.range_succ_eq_map, List.map_cons, List.map_map]
    congr 1
    · rw [Nat.add_zero, rotGet_of_lt inst hne cur hc]
    · apply List.map_congr_left
      intro t _
      simp only [Function.comp]
      unfold rotGet
      apply congrArg inst.get
      apply Fin.ext
      show ((cur + 1) % inst.length + t) % inst.length =
        (cur + Nat.succ t) % inst.length
      rw [Nat.mod_add_mod]
      congr 1
      omega

/-- Claim C5: `get_latest_embedding_instance(instance_type=X)` implements
round-robin selection over the group's `k` instances: each call returns
the instance at the current rotation cursor and advances the cursor
modulo `k`; `m` sequential calls return the rotation trace
`instances[(cur + t) mod k]` for `t < m`; every instance is visited
either `⌊m/k⌋` or `⌈m/k⌉` times; and within one full cycle of `k` calls
each instance is visited exactly once. -/
theorem claim_C5_round_robin {α : Type} (inst : List α) (hne : inst ≠ [])
    (cur : Nat) (hc : cur < inst.length) (m : Nat) :
    (getLatestEmbeddingInstance inst (some cur) =
        some (inst.get ⟨cur, hc⟩, some ((cur + 1) % inst.length))) ∧
    ((selectN inst m (some cur)).1 =
        (List.range m).map (fun t => rotGet inst hne (cur + t))) ∧
    (∀ j, j < inst.length →
        ((List.range m).countP
            (fun t => decide ((cur + t) % inst.length = j)) = m / inst.length ∨
          (List.range m).countP
            (fun t => decide ((cur + t) % inst.length = j)) =
              (m + inst.length - 1) / inst.length)) ∧
    (∀ j, j < inst.length →
        (List.range inst.length).countP
          (fun t => decide ((cur + t) % inst.length = j)) = 1) := by
  have hk : 0 < inst.length := List.length_pos.mpr hne
  refine ⟨getLatest_spec inst hne cur hc, selectN_trace inst hne m cur hc, ?_, ?_⟩
  · intro j hj
    exact rr_count_floor_ceil inst.length cur j m hk hj
  · intro j hj
    exact rr_cycle inst.length cur j hk hj

/-- Witness for claim C5 at a concrete group of three instances. -/
theorem claim_C5_round_robin_witness :
    (selectN [10, 20, 30] 4 (some 0)).1 = [10, 20, 30, 10] ∧
    getLatestEmbeddingInstance [10, 20, 30] (some 0) = some (10, some 1) := by
  have h := claim_C5_round_robin (α := Nat) [10, 20, 30] (by decide) 0
    (by decide) 4
  constructor
  · rw [h.2.1]; decide
  · rw [h.1]; decide

/-- Claim C7: refuted on the code — `tags_schema` carries no item-count
bounds, so `tags_validate` accepts the empty list and a seven-element
list of strings, contradicting the claimed 1-to-6-item window. -/
theorem claim_C7_counterexample :
    tagsValidate (JVal.arr []) = true ∧
    tagsValidate (JVal.arr (List.replicate 7 (JVal.str abText))) = true :=
  ⟨rfl, rfl⟩

/-- Claim C7 (amended): `tags_validate` accepts a value exactly when it is
a JSON array all of whose items are strings, with no constraint on the
number of items. -/
theorem claim_C7_amended (v : JVal) :
    tagsValidate v = true ↔
      ∃ l, v = JVal.arr l ∧ ∀ x ∈ l, jIsStr x = true := by
  cases v with
  | null => simp [tagsValidate]
  | bool b => simp [tagsValidate]
  | num n => simp [tagsValidate]
  | str s => simp [tagsValidate]
  | arr l => simp [tagsValidate, List.all_eq_true]

/-- Witness for the amended claim C7 at a concrete value. -/
theorem claim_C7_amended_witness :
    ∃ l, JVal.arr [JVal.str abText] = JVal.arr l ∧ ∀ x ∈ l, jIsStr x = true :=
  (claim_C7_amended (JVal.arr [JVal.str abText])).mp rfl

/-- Claim C6: per-document failure isolation in tag extraction — with a
nonempty document list, the batch reports ok whatever the per-document
outcomes are; a document whose summarization fails (exception on the way
to a parsed value, or schema-invalid value) ends with the empty tag list;
and a document with nonempty text whose summary parses and validates to a
truthy list has its tags present among the written updates. -/
theorem claim_C6_failure_isolation (docs : List DocRec)
    (oracle : Nat → LLMOutcome) (hne : docs ≠ []) :
    (produceDocumentGraph docs oracle).okStatus = true ∧
    (∀ d ∈ docs,
      (oracle d.docId = LLMOutcome.raises ∨
        (∃ v, oracle d.docId = LLMOutcome.parsed v ∧ tagsValidate v = false)) →
      singleDocumentSummary d.text (oracle d.docId) = JVal.arr []) ∧
    (∀ d ∈ docs, ¬ (d.text.isEmpty = true) → ∀ v,
      oracle d.docId = LLMOutcome.parsed v → tagsValidate v = true →
      jTruthy v = true →
      (d.docId, v) ∈ (produceDocumentGraph docs oracle).updates) := by
  have hne2 : ¬ (docs.isEmpty = true) := by
    cases docs with
    | nil => exact absurd rfl hne
    | cons a l => simp
  refine ⟨?_, ?_, ?_⟩
  · unfold produceDocumentGraph
    rw [if_neg hne2]
  · intro d _ hfail
    unfold singleDocumentSummary
    by_cases htext : d.text.isEmpty = true
    · rw [if_pos htext]
    · rw [if_neg htext]
      have hex : extractSummary (oracle d.docId) = Except.error () := by
        rcases hfail with h | ⟨v, hv, hval⟩
        · rw [h]; rfl
        · rw [hv]
          simp only [extractSummary]
          rw [if_neg (by rw [hval]; exact Bool.false_ne_true)]
      rw [hex]
  · intro d hd htext v hv hval htruthy
    unfold produceDocumentGraph
    rw [if_neg hne2]
    apply List.mem_filterMap.mpr
    refine ⟨d, hd, ?_⟩
    have hsum : singleDocumentSummary d.text (oracle d.docId) = v := by
      unfold singleDocumentSummary
      rw [if_neg htext]
      have hex : extractSummary (oracle d.docId) = Except.ok v := by
        rw [hv]
        simp only [extractSummary]
        rw [if_pos hval]
      rw [hex]
    rw [hsum, if_pos htruthy]

/-- Witness for claim C6 at a concrete batch: with one document raising
and another validating, the batch is ok, the failing document gets no
tags and the other document's tags are written. -/
theorem claim_C6_failure_isolation_witness :
    (produceDocumentGraph [⟨1, abText⟩, ⟨2, abText⟩]
        (fun i => if i = 1 then LLMOutcome.raises
          else LLMOutcome.parsed (JVal.arr [JVal.str abText]))).okStatus = true ∧
    singleDocumentSummary abText LLMOutcome.raises = JVal.arr [] ∧
    (2, JVal.arr [JVal.str abText]) ∈
      (produceDocumentGraph [⟨1, abText⟩, ⟨2, abText⟩]
        (fun i => if i = 1 then LLMOutcome.raises
          else LLMOutcome.parsed (JVal.arr [JVal.str abText]))).updates := by
  have h := claim_C6_failure_isolation [⟨1, abText⟩, ⟨2, abText⟩]
    (fun i => if i = 1 then LLMOutcome.raises
      else LLMOutcome.parsed (JVal.arr [JVal.str abText])) (by simp)
  refine ⟨h.1, ?_, ?_⟩
  · exact h.2.1 ⟨1, abText⟩ (by simp) (Or.inl rfl)
  · exact h.2.2 ⟨2, abText⟩ (by simp) (by decide) (JVal.arr [JVal.str abText])
      rfl rfl rfl

/-- Claim C8: retry behaviour of `download_file` — when the first attempt
fails and the public-prefix rewrite changes the URL, exactly one retry is
made on the internal URL (the attempted URLs are precisely the original
and the internal one); a failing retry propagates its error with the
original first-attempt error preserved in the raised error's chain; and
when the rewrite leaves the URL unchanged the original error propagates
immediately after the single attempt. -/
theorem claim_C8_retry_once (cfg : NetCfg) {ε ρ : Type}
    (attempt : List Char → Except ε ρ) (url : List Char) (e1 : ε)
    (hfail : attempt url = Except.error e1) :
    (convertToInternalMinioUrl cfg url ≠ url →
      (downloadFile cfg attempt url).2 =
          [url, convertToInternalMinioUrl cfg url] ∧
      (∀ r, attempt (convertToInternalMinioUrl cfg url) = Except.ok r →
        (downloadFile cfg attempt url).1 = Except.ok r) ∧
      (∀ e2, attempt (convertToInternalMinioUrl cfg url) = Except.error e2 →
        (downloadFile cfg attempt url).1 =
          Except.error { err := e2, causeChain := some e1 })) ∧
    (convertToInternalMinioUrl cfg url = url →
      downloadFile cfg attempt url =
        (Except.error { err := e1, causeChain := none }, [url])) := by
  simp only [downloadFile, hfail]
  constructor
  · intro hne
    rw [if_pos hne]
    refine ⟨?_, ?_, ?_⟩
    · cases h2 : attempt (convertToInternalMinioUrl cfg url) with
      | ok r => rfl
      | error e2 => rfl
    · intro r hr; rw [hr]
    · intro e2 he2; rw [he2]
  · intro heq
    rw [if_neg (show ¬ convertToInternalMinioUrl cfg url ≠ url from
      fun h => h heq)]

/-- Witness for claim C8 at a concrete configuration and failing oracle:
both attempts fail, the attempted URLs are the original and the rewritten
internal one, and the raised error chains the original error. -/
theorem claim_C8_retry_once_witness :
    downloadFile
        { publicUrlRoot := ("http://pub").toList, host := ("h").toList,
          port := ("9000").toList }
        (fun u => (Except.error u.length : Except Nat Unit))
        (("http://pub/b/f").toList) =
      (Except.error { err := 17, causeChain := some 14 },
        [("http://pub/b/f").toList, ("http://h:9000/b/f").toList]) := by
  have h := claim_C8_retry_once
    { publicUrlRoot := ("http://pub").toList, host := ("h").toList,
      port := ("9000").toList }
    (fun u => (Except.error u.length : Except Nat Unit))
    (("http://pub/b/f").toList) 14 rfl
  have h1 := (h.1 (by decide)).1
  have h2 := (h.1 (by decide)).2.2 17 rfl
  have hcv : convertToInternalMinioUrl
      { publicUrlRoot := ("http://pub").toList, host := ("h").toList,
        port := ("9000").toList } (("http://pub/b/f").toList) =
      ("http://h:9000/b/f").toList := by decide
  rw [hcv] at h1
  exact Prod.ext h2 h1
